import Mathlib

/-!
Verification of `include/locks.h`

A shallow embedding of the `Event`-based templates of `include/locks.h`
(`ValueEvent<Value>` and `Queue<T>`) and the properties of them that the
specification states.

Conventions of the embedding.

* One call of a member function is one atomic step on an explicit state.  A call
  that would park its thread in `Event::wait` does not complete; it is the
  outcome `Outcome.blocked`.  A call that would run `QQueue::dequeue` on an empty
  container has no defined result; it is the outcome `Outcome.undefinedBehaviour`.
* C++ `int` values (`capacity`, `size()`) are embedded in `Int`.  The code only
  compares them (`<=`, `<`, `>`, `>=`) and never does arithmetic on them, so no
  wrap-around can occur.
-/

namespace Locks

/-- Result of one call: it returned `a`, it is parked in `Event::wait`, or it ran
an operation without defined behaviour. -/
inductive Outcome (α : Type) where
  | done (a : α)
  | blocked
  | undefinedBehaviour
  deriving DecidableEq, Repr

/-! ## `class Event` (declared at `locks.h:64-79`, implemented outside the header) -/

/-- Modelled from the spec: the state behind `class Event`, whose implementation
(`EventPrivate`) is not in the header.  The spec describes it as a boolean flag
(with a count of parked waiters, which is zero between completed calls and is
left out). -/
structure Event where
  flag : Bool
  deriving DecidableEq, Repr

/-- Modelled from the spec: `Event::Event()`, implemented outside the header.  A new
event is taken to be unset; `Queue::Queue` overwrites both of its events, so no
property of `Queue` depends on this choice. -/
def Event.ctor : Event := { flag := false }

/-- Modelled from the spec: `Event::set()`, "transitions the flag to set". -/
def Event.set (_ev : Event) : Event := { flag := true }

/-- Modelled from the spec: `Event::clear()`, "transitions back to unset". -/
def Event.clear (_ev : Event) : Event := { flag := false }

/-- Modelled from the spec: `Event::isSet()`, a snapshot of the flag. -/
def Event.isSet (ev : Event) : Bool := ev.flag

/-- Modelled from the spec: `Event::wait(blocking)`: "returns true immediately if
the flag is set; otherwise, if blocking, suspends until `set()` is called by
another thread; if non-blocking, returns false immediately".  The flag is not
changed by `wait`. -/
def Event.wait (ev : Event) (blocking : Bool) : Outcome Bool :=
  if ev.flag then .done true
  else if blocking then .blocked
  else .done false

/-! ## `ValueEvent<Value>` (`locks.h:81-107`) -/

/-- The two data members of `ValueEvent<Value>` (`locks.h:91-92`). -/
structure ValueEvent (Value : Type) where
  event : Event
  value : Value
  deriving DecidableEq, Repr

/-- The statements that occur in the body of `ValueEvent::send`: `storeValue v` is
`this->value = value;` and `setEvent` is `event.set();`. -/
inductive SendStmt (Value : Type) where
  | storeValue (v : Value)
  | setEvent
  deriving DecidableEq, Repr

/-- Effect of one statement of `send` on the object. -/
def SendStmt.exec {Value : Type} : SendStmt Value → ValueEvent Value → ValueEvent Value
  | .storeValue v, s => { s with value := v }
  | .setEvent, s => { s with event := s.event.set }

/-- Body of `ValueEvent::send` (`locks.h:98-99`), in program order. -/
def ValueEvent.sendBody {Value : Type} (value : Value) : List (SendStmt Value) :=
  [.storeValue value, .setEvent]

/-- State after the first `k` statements of a statement list. -/
def ValueEvent.execFirst {Value : Type} (s : ValueEvent Value)
    (body : List (SendStmt Value)) (k : Nat) : ValueEvent Value :=
  (body.take k).foldl (fun st stmt => stmt.exec st) s

/-- The call `ValueEvent::send` (`locks.h:95-100`): the whole body is run. -/
def ValueEvent.send {Value : Type} (s : ValueEvent Value) (value : Value) : ValueEvent Value :=
  s.execFirst (ValueEvent.sendBody value) (ValueEvent.sendBody value).length

/-- The call `ValueEvent::wait` (`locks.h:102-107`): `event.wait(blocking); return value;`.
The boolean that `Event::wait` returns is discarded. -/
def ValueEvent.wait {Value : Type} (s : ValueEvent Value) (blocking : Bool) : Outcome Value :=
  match s.event.wait blocking with
  | .done _ => .done s.value
  | .blocked => .blocked
  | .undefinedBehaviour => .undefinedBehaviour

/-- The member `ValueEvent::isSet` (`locks.h:89`). -/
def ValueEvent.isSet {Value : Type} (s : ValueEvent Value) : Bool := s.event.isSet

/-! ## `QQueue<T>` (Qt container used by `Queue<T>`) -/

/-- Qt's `QQueue<T>`: a sequence whose front is the head of the list. -/
abbrev QQueue (T : Type) := List T

/-- Qt's `QQueue::enqueue`: appends at the back. -/
def QQueue.enqueue {T : Type} (q : QQueue T) (e : T) : QQueue T := q ++ [e]

/-- Qt's `QQueue::dequeue`: removes and returns the front item; it has no defined
result on an empty container (`none`). -/
def QQueue.dequeue {T : Type} : QQueue T → Option (T × QQueue T)
  | [] => none
  | x :: rest => some (x, rest)

/-- Qt's `QQueue::size`. -/
def QQueue.size {T : Type} (q : QQueue T) : Int := (List.length q : Int)

/-- Qt's `QQueue::isEmpty`. -/
def QQueue.isEmpty {T : Type} (q : QQueue T) : Bool := List.isEmpty q

/-! ## `Queue<T>` (`locks.h:144-216`) -/

/-- The data members of `Queue<T>` (`locks.h:159-162`). -/
structure Queue (T : Type) where
  queue : QQueue T
  notEmpty : Event
  notFull : Event
  capacity : Int
  deriving DecidableEq, Repr

variable {T : Type}

/-- The member `Queue::getCapacity` (`locks.h:155`). -/
def Queue.getCapacity (q : Queue T) : Int := q.capacity

/-- The member `Queue::size` (`locks.h:156`). -/
def Queue.size (q : Queue T) : Int := QQueue.size q.queue

/-- The constructor `Queue::Queue(int capacity)` (`locks.h:165-171`). -/
def Queue.ctor (capacity : Int) : Queue T :=
  { queue := [], notEmpty := Event.ctor.clear, notFull := Event.ctor.set, capacity := capacity }

/-- The body of the destructor `Queue::~Queue()` (`locks.h:173-178`). -/
def Queue.dtor (q : Queue T) : Queue T :=
  let q1 := { q with notFull := q.notFull.set }
  { q1 with notEmpty := q1.notEmpty.set }

/-- The member `Queue::setCapacity` (`locks.h:180-186`). -/
def Queue.setCapacity (q : Queue T) (capacity : Int) : Queue T :=
  let q1 := { q with capacity := capacity }
  if q1.capacity ≤ 0 ∨ QQueue.size q1.queue < q1.capacity then
    { q1 with notFull := q1.notFull.set }
  else q1

/-- The member `Queue::put` (`locks.h:188-194`). -/
def Queue.put (q : Queue T) (e : T) : Outcome (Queue T) :=
  match q.notFull.wait true with
  | .blocked => .blocked
  | .undefinedBehaviour => .undefinedBehaviour
  | .done _ =>
    let q1 := { q with queue := QQueue.enqueue q.queue e }
    .done { q1 with notEmpty := q1.notEmpty.set }

/-- The member `Queue::get` (`locks.h:196-204`). -/
def Queue.get (q : Queue T) : Outcome (T × Queue T) :=
  match q.notEmpty.wait true with
  | .blocked => .blocked
  | .undefinedBehaviour => .undefinedBehaviour
  | .done _ =>
    match QQueue.dequeue q.queue with
    | none => .undefinedBehaviour
    | some (e, rest) =>
      let q1 := { q with queue := rest }
      if q1.capacity ≤ 0 ∨ QQueue.size q1.queue < q1.capacity then
        .done (e, { q1 with notFull := q1.notFull.set })
      else .done (e, q1)

/-- The member `Queue::isEmpty` (`locks.h:206-210`). -/
def Queue.isEmpty (q : Queue T) : Bool := QQueue.isEmpty q.queue

/-- The member `Queue::isFull` (`locks.h:212-216`). -/
def Queue.isFull (q : Queue T) : Bool :=
  decide (q.capacity > 0 ∧ QQueue.size q.queue ≥ q.capacity)

/-! ## Sequences of calls -/

/-- A call on a queue. -/
inductive Op (T : Type) where
  | put (e : T)
  | get
  | setCapacity (c : Int)
  deriving DecidableEq, Repr

/-- Whether the call is a `put` or a `get`. -/
def Op.isPutGet : Op T → Bool
  | .put _ => true
  | .get => true
  | .setCapacity _ => false

/-- One call: the value it returns (for `get`) and the state it leaves. -/
def Queue.step (q : Queue T) : Op T → Outcome (Option T × Queue T)
  | .put e =>
    match q.put e with
    | .done q1 => .done (none, q1)
    | .blocked => .blocked
    | .undefinedBehaviour => .undefinedBehaviour
  | .get =>
    match q.get with
    | .done (x, q1) => .done (some x, q1)
    | .blocked => .blocked
    | .undefinedBehaviour => .undefinedBehaviour
  | .setCapacity c => .done (none, q.setCapacity c)

/-- A sequence of calls, each started after the one before it has completed: the
values the `get` calls returned, in order, and the final state.  The sequence
stops at the first call that does not complete. -/
def Queue.run : List (Op T) → Queue T → Outcome (List T × Queue T)
  | [], q => .done ([], q)
  | op :: ops, q =>
    match q.step op with
    | .done (o, q1) =>
      match Queue.run ops q1 with
      | .done (outs, q2) => .done (o.toList ++ outs, q2)
      | .blocked => .blocked
      | .undefinedBehaviour => .undefinedBehaviour
    | .blocked => .blocked
    | .undefinedBehaviour => .undefinedBehaviour

/-- States reachable from `Queue(C)` by completed `put` and `get` calls. -/
def Reachable (C : Int) (q : Queue T) : Prop :=
  ∃ ops outs, ops.all Op.isPutGet = true ∧ Queue.run ops (Queue.ctor C) = .done (outs, q)

/-- States reachable from `Queue(C)` by completed `put`, `get` and `setCapacity`
calls. -/
def ReachableAny (C : Int) (q : Queue T) : Prop :=
  ∃ ops outs, Queue.run ops (Queue.ctor C) = .done (outs, q)

/-! ## Basic facts about single calls -/

theorem Queue.put_of_notFull (q : Queue T) (e : T) (h : q.notFull.flag = true) :
    q.put e = .done { queue := q.queue ++ [e], notEmpty := { flag := true },
                      notFull := q.notFull, capacity := q.capacity } := by
  simp [Queue.put, Event.wait, h, QQueue.enqueue, Event.set]

theorem Queue.put_of_not_notFull (q : Queue T) (e : T) (h : q.notFull.flag = false) :
    q.put e = .blocked := by
  simp [Queue.put, Event.wait, h]

theorem Queue.put_done_iff (q : Queue T) (e : T) (q1 : Queue T) :
    q.put e = .done q1 ↔
      q.notFull.flag = true ∧
      q1 = { queue := q.queue ++ [e], notEmpty := { flag := true },
             notFull := q.notFull, capacity := q.capacity } := by
  cases h : q.notFull.flag
  · simp [Queue.put_of_not_notFull q e h]
  · simp [Queue.put_of_notFull q e h, eq_comm]

theorem Queue.get_of_cons (q : Queue T) (x : T) (rest : List T)
    (hq : q.queue = x :: rest) (h : q.notEmpty.flag = true) :
    q.get = .done (x, { queue := rest, notEmpty := q.notEmpty,
                        notFull := if q.capacity ≤ 0 ∨ (rest.length : Int) < q.capacity
                                   then { flag := true } else q.notFull,
                        capacity := q.capacity }) := by
  simp only [Queue.get, Event.wait, h, hq, QQueue.dequeue, QQueue.size, Event.set, if_true]
  split <;> rfl

theorem Queue.get_of_nil (q : Queue T) (hq : q.queue = []) (h : q.notEmpty.flag = true) :
    q.get = .undefinedBehaviour := by
  simp [Queue.get, Event.wait, h, hq, QQueue.dequeue]

theorem Queue.get_of_not_notEmpty (q : Queue T) (h : q.notEmpty.flag = false) :
    q.get = .blocked := by
  simp [Queue.get, Event.wait, h]

theorem Queue.get_done_iff (q : Queue T) (x : T) (q1 : Queue T) :
    q.get = .done (x, q1) ↔
      q.notEmpty.flag = true ∧ ∃ rest, q.queue = x :: rest ∧
      q1 = { queue := rest, notEmpty := q.notEmpty,
             notFull := if q.capacity ≤ 0 ∨ (rest.length : Int) < q.capacity
                        then { flag := true } else q.notFull,
             capacity := q.capacity } := by
  cases h : q.notEmpty.flag
  · simp [Queue.get_of_not_notEmpty q h]
  · cases hq : q.queue with
    | nil => simp [Queue.get_of_nil q hq h]
    | cons y rest =>
      rw [Queue.get_of_cons q y rest hq h]
      constructor
      · intro hd
        injection hd with hd
        injection hd with h1 h2
        subst h1
        exact ⟨rfl, rest, rfl, h2.symm⟩
      · rintro ⟨-, r, hr, rfl⟩
        injection hr with h1 h2
        subst h1 h2
        rfl

theorem Queue.setCapacity_eq (q : Queue T) (c : Int) :
    q.setCapacity c =
      { queue := q.queue, notEmpty := q.notEmpty,
        notFull := if c ≤ 0 ∨ (q.queue.length : Int) < c then { flag := true } else q.notFull,
        capacity := c } := by
  simp only [Queue.setCapacity, QQueue.size, Event.set]
  split <;> rfl

theorem Queue.step_done_iff (q : Queue T) (op : Op T) (o : Option T) (q1 : Queue T) :
    q.step op = .done (o, q1) ↔
      (∃ e, op = .put e ∧ o = none ∧ q.put e = .done q1) ∨
      (∃ x, op = .get ∧ o = some x ∧ q.get = .done (x, q1)) ∨
      (∃ c, op = .setCapacity c ∧ o = none ∧ q1 = q.setCapacity c) := by
  cases op with
  | put e =>
    simp only [Queue.step]
    cases hp : q.put e <;> simp [hp]
    intro _
    exact eq_comm
  | get =>
    simp only [Queue.step]
    cases hg : q.get with
    | done a =>
      obtain ⟨x, q2⟩ := a
      simp [hg]
      constructor
      · rintro ⟨rfl, rfl⟩; exact ⟨x, rfl, rfl, rfl⟩
      · rintro ⟨y, rfl, rfl, rfl⟩; exact ⟨rfl, rfl⟩
    | blocked => simp [hg]
    | undefinedBehaviour => simp [hg]
  | setCapacity c =>
    simp only [Queue.step]
    simp
    constructor
    · rintro ⟨rfl, rfl⟩; exact ⟨rfl, rfl⟩
    · rintro ⟨rfl, rfl⟩; exact ⟨rfl, rfl⟩

theorem Queue.run_cons_done_iff (q : Queue T) (op : Op T) (ops : List (Op T))
    (outs : List T) (q2 : Queue T) :
    Queue.run (op :: ops) q = .done (outs, q2) ↔
      ∃ o q1 outs1, q.step op = .done (o, q1) ∧ Queue.run ops q1 = .done (outs1, q2) ∧
        outs = o.toList ++ outs1 := by
  simp only [Queue.run]
  cases hs : q.step op with
  | done a =>
    obtain ⟨o, q1⟩ := a
    cases hr : Queue.run ops q1 with
    | done b =>
      obtain ⟨outs1, q3⟩ := b
      simp [hr]
      constructor
      · rintro ⟨rfl, rfl⟩; exact ⟨o, q1, ⟨rfl, rfl⟩, outs1, hr, rfl⟩
      · rintro ⟨o1, q4, ⟨rfl, rfl⟩, outs2, h2, rfl⟩
        rw [hr] at h2
        injection h2 with h2
        injection h2 with h6 h7
        subst h6 h7
        exact ⟨rfl, rfl⟩
    | blocked =>
      simp [hr]
    | undefinedBehaviour =>
      simp [hr]
  | blocked => simp
  | undefinedBehaviour => simp

/-- An invariant kept by every completed call of a class of calls holds after every
completed sequence of such calls. -/
theorem Queue.run_invariant (allow : Op T → Bool) (P : Queue T → Prop)
    (hstep : ∀ q op o q1, allow op = true → P q → q.step op = .done (o, q1) → P q1) :
    ∀ (ops : List (Op T)) (q : Queue T) (outs : List T) (q2 : Queue T),
      ops.all allow = true → P q → Queue.run ops q = .done (outs, q2) → P q2 := by
  intro ops
  induction ops with
  | nil =>
    intro q outs q2 _ hP hrun
    simp only [Queue.run] at hrun
    injection hrun with hrun
    injection hrun with _ h2
    subst h2
    exact hP
  | cons op ops ih =>
    intro q outs q2 hall hP hrun
    rw [Queue.run_cons_done_iff] at hrun
    obtain ⟨o, q1, outs1, hs, hr, -⟩ := hrun
    simp only [List.all_cons, Bool.and_eq_true] at hall
    exact ih q1 outs1 q2 hall.2 (hstep q op o q1 hall.1 hP hs) hr

theorem Queue.run_append (ops1 ops2 : List (Op T)) :
    ∀ (q q1 q2 : Queue T) (outs1 outs2 : List T),
      Queue.run ops1 q = .done (outs1, q1) → Queue.run ops2 q1 = .done (outs2, q2) →
      Queue.run (ops1 ++ ops2) q = .done (outs1 ++ outs2, q2) := by
  induction ops1 with
  | nil =>
    intro q q1 q2 outs1 outs2 h1 h2
    simp only [Queue.run] at h1
    injection h1 with h1
    injection h1 with ha hb
    subst ha hb
    simpa using h2
  | cons op ops ih =>
    intro q q1 q2 outs1 outs2 h1 h2
    rw [Queue.run_cons_done_iff] at h1
    obtain ⟨o, q3, outs3, hs, hr, rfl⟩ := h1
    rw [List.cons_append, Queue.run_cons_done_iff]
    exact ⟨o, q3, outs3 ++ outs2, hs, ih q3 q1 q2 outs3 outs2 hr h2, by simp⟩

/-- A run of `put` calls on a queue whose `notFull` is set completes and appends the
items in order. -/
theorem Queue.run_puts (xs : List T) :
    ∀ q : Queue T, q.notFull.flag = true →
      ∃ q1, Queue.run (xs.map Op.put) q = .done ([], q1) ∧ q1.queue = q.queue ++ xs ∧
        q1.notFull = q.notFull ∧ q1.capacity = q.capacity ∧
        (xs ≠ [] → q1.notEmpty.flag = true) := by
  induction xs with
  | nil =>
    intro q _
    exact ⟨q, rfl, by simp, rfl, rfl, fun h => absurd rfl h⟩
  | cons x xs ih =>
    intro q hq
    obtain ⟨q1, hrun, hbuf, hnf, hcap, hne⟩ :=
      ih { queue := q.queue ++ [x], notEmpty := { flag := true },
           notFull := q.notFull, capacity := q.capacity } hq
    refine ⟨q1, ?_, ?_, hnf, hcap, ?_⟩
    · rw [List.map_cons, Queue.run_cons_done_iff]
      refine ⟨none, _, [], ?_, hrun, rfl⟩
      rw [Queue.step_done_iff]
      exact Or.inl ⟨x, rfl, rfl, Queue.put_of_notFull q x hq⟩
    · simpa using hbuf
    · intro _
      cases xs with
      | nil =>
        simp only [List.map_nil, Queue.run] at hrun
        injection hrun with hrun
        injection hrun with _ hb
        subst hb
        rfl
      | cons y ys => exact hne (by simp)

/-- A run of `get` calls on a queue whose `notEmpty` is set returns the front items in
order. -/
theorem Queue.run_gets (xs : List T) :
    ∀ (q : Queue T) (ys : List T), q.queue = xs ++ ys → (xs ≠ [] → q.notEmpty.flag = true) →
      ∃ q1, Queue.run (List.replicate xs.length Op.get) q = .done (xs, q1) ∧ q1.queue = ys ∧
        q1.capacity = q.capacity ∧ q1.notEmpty = q.notEmpty := by
  induction xs with
  | nil =>
    intro q ys hq _
    exact ⟨q, rfl, by simpa using hq, rfl, rfl⟩
  | cons x xs ih =>
    intro q ys hq hne
    have hflag : q.notEmpty.flag = true := hne (by simp)
    have hget := Queue.get_of_cons q x (xs ++ ys) (by simpa using hq) hflag
    obtain ⟨q1, hrun, hbuf, hcap, hev⟩ :=
      ih { queue := xs ++ ys, notEmpty := q.notEmpty,
           notFull := if q.capacity ≤ 0 ∨ ((xs ++ ys).length : Int) < q.capacity
                      then { flag := true } else q.notFull,
           capacity := q.capacity } ys rfl (fun _ => hflag)
    refine ⟨q1, ?_, hbuf, hcap, hev⟩
    rw [List.length_cons, List.replicate_succ, Queue.run_cons_done_iff]
    refine ⟨some x, _, xs, ?_, hrun, rfl⟩
    rw [Queue.step_done_iff]
    exact Or.inr (Or.inl ⟨x, rfl, rfl, hget⟩)

/-! ## Bounded capacity (`put` against `notFull`) -/

/-- C1 (fails on the code): `Queue(1)` followed by `put(1)` and `put(2)` completes both
calls and leaves two items in a queue of capacity 1, because `put` never clears
`notFull`; so it is not true that every reachable state of a queue of capacity
`C > 0` has `size() <= C`. -/
theorem put_exceeds_capacity :
    Queue.run [.put 1, .put 2] (Queue.ctor 1 : Queue Int)
        = .done ([], { queue := [1, 2], notEmpty := { flag := true },
                       notFull := { flag := true }, capacity := 1 }) ∧
      Queue.size ({ queue := [1, 2], notEmpty := { flag := true },
                    notFull := { flag := true }, capacity := 1 } : Queue Int) = 2 ∧
      ¬ ∀ (C : Int), 0 < C → ∀ q : Queue Int, Reachable C q → q.size ≤ C := by
  refine ⟨by decide, by decide, ?_⟩
  intro h
  have h1 := h 1 (by decide)
    { queue := [1, 2], notEmpty := { flag := true }, notFull := { flag := true }, capacity := 1 }
    ⟨[.put 1, .put 2], [], by decide, by decide⟩
  revert h1
  decide

/-- C2 (fails on the code): after `put(1)` and `put(2)` on `Queue(2)` the queue is at
its capacity and `notFull` is still set, and a third `put` completes instead of
blocking; so `notFull` set is not equivalent to `capacity <= 0 or size() < capacity`
on reachable states. -/
theorem notFull_set_at_capacity :
    Queue.run [.put 1, .put 2] (Queue.ctor 2 : Queue Int)
        = .done ([], { queue := [1, 2], notEmpty := { flag := true },
                       notFull := { flag := true }, capacity := 2 }) ∧
      Queue.put ({ queue := [1, 2], notEmpty := { flag := true },
                   notFull := { flag := true }, capacity := 2 } : Queue Int) 3
        = .done { queue := [1, 2, 3], notEmpty := { flag := true },
                  notFull := { flag := true }, capacity := 2 } ∧
      ¬ ∀ (C : Int) (q : Queue Int), Reachable C q →
          (q.notFull.isSet = true ↔ (q.capacity ≤ 0 ∨ q.size < q.capacity)) := by
  refine ⟨by decide, by decide, ?_⟩
  intro h
  have h1 := h 2
    { queue := [1, 2], notEmpty := { flag := true }, notFull := { flag := true }, capacity := 2 }
    ⟨[.put 1, .put 2], [], by decide, by decide⟩
  revert h1
  decide

/-! ## `get` against `notEmpty` -/

/-- C3 (fails on the code): after `put(1)` and `get()` on `Queue(2)` the buffer is empty
and `notEmpty` is still set, because `get` never clears it; a second `get()` passes
the wait and runs `dequeue` on the empty buffer.  So a set `notEmpty` does not imply
`size() > 0` on reachable states. -/
theorem get_dequeues_empty_buffer :
    Queue.run [.put 1, .get] (Queue.ctor 2 : Queue Int)
        = .done ([1], { queue := [], notEmpty := { flag := true },
                        notFull := { flag := true }, capacity := 2 }) ∧
      Queue.get ({ queue := [], notEmpty := { flag := true },
                   notFull := { flag := true }, capacity := 2 } : Queue Int)
        = .undefinedBehaviour ∧
      ¬ ∀ (C : Int) (q : Queue Int), Reachable C q → q.notEmpty.isSet = true → 0 < q.size := by
  refine ⟨by decide, by decide, ?_⟩
  intro h
  have h1 := h 2
    { queue := [], notEmpty := { flag := true }, notFull := { flag := true }, capacity := 2 }
    ⟨[.put 1, .get], [1], by decide, by decide⟩ (by decide)
  revert h1
  decide

/-! ## FIFO order -/

/-- C4: for every list `xs` and capacity `C` with `C <= 0` or `C >= length xs`, starting
from `Queue(C)`, the calls `put(x)` for the elements of `xs` in order followed by
`length xs` calls of `get()` all complete, the `get` calls return exactly `xs` in
order, and the buffer is left empty. -/
theorem fifo_order (xs : List T) (C : Int) (hC : C ≤ 0 ∨ (xs.length : Int) ≤ C) :
    ∃ q : Queue T,
      Queue.run (xs.map Op.put ++ List.replicate xs.length Op.get) (Queue.ctor C)
        = .done (xs, q) ∧
      q.queue = [] ∧ q.isEmpty = true ∧ q.size = 0 := by
  have _ := hC
  obtain ⟨q1, hputs, hbuf, -, -, hne⟩ := Queue.run_puts xs (Queue.ctor C : Queue T) rfl
  obtain ⟨q2, hgets, hbuf2, -, -⟩ :=
    Queue.run_gets xs q1 [] (by simpa [Queue.ctor] using hbuf) hne
  refine ⟨q2, ?_, hbuf2, ?_, ?_⟩
  · simpa using Queue.run_append _ _ _ _ _ _ _ hputs hgets
  · simp [Queue.isEmpty, QQueue.isEmpty, hbuf2]
  · simp [Queue.size, QQueue.size, hbuf2]

theorem fifo_order_witness :
    ((3 : Int) ≤ 0 ∨ (([1, 2, 3] : List Int).length : Int) ≤ 3) ∧
    ∃ q : Queue Int,
      Queue.run (([1, 2, 3] : List Int).map Op.put
          ++ List.replicate ([1, 2, 3] : List Int).length Op.get) (Queue.ctor 3)
        = .done ([1, 2, 3], q) ∧
      q.queue = [] ∧ q.isEmpty = true ∧ q.size = 0 :=
  ⟨by decide, fifo_order [1, 2, 3] 3 (by decide)⟩

/-! ## Postcondition of `get` -/

/-- C5: on every queue whose buffer is `x :: rest` and whose `notEmpty` is set, `get()`
completes and returns `x`, leaves the buffer `rest` and the capacity unchanged, and
leaves `notFull` set whenever `capacity <= 0` or `length rest < capacity`.  For a
queue of capacity 2 holding `[1, 2]` (whatever `notFull` is), `get()` returns 1 and
sets `notFull`, and a following `put(3)` completes and leaves `[2, 3]`. -/
theorem get_postcondition :
    (∀ (q : Queue T) (x : T) (rest : List T),
        q.queue = x :: rest → q.notEmpty.isSet = true →
        ∃ q1, q.get = .done (x, q1) ∧ q1.queue = rest ∧ q1.getCapacity = q.getCapacity ∧
          ((q.capacity ≤ 0 ∨ (rest.length : Int) < q.capacity) → q1.notFull.isSet = true)) ∧
    (∀ nf : Event,
        ∃ q1 q2 : Queue Int,
          Queue.get ({ queue := [1, 2], notEmpty := { flag := true }, notFull := nf,
                       capacity := 2 } : Queue Int) = .done (1, q1) ∧
          q1.notFull.isSet = true ∧ q1.put 3 = .done q2 ∧ q2.queue = [2, 3] ∧
          q2.getCapacity = 2) := by
  constructor
  · intro q x rest hq hne
    refine ⟨_, Queue.get_of_cons q x rest hq hne, rfl, rfl, ?_⟩
    intro h
    simp [Event.isSet, h]
  · intro nf
    refine ⟨{ queue := [2], notEmpty := { flag := true }, notFull := { flag := true },
              capacity := 2 },
            { queue := [2, 3], notEmpty := { flag := true }, notFull := { flag := true },
              capacity := 2 }, ?_, rfl, by decide, rfl, rfl⟩
    rw [Queue.get_of_cons _ 1 [2] rfl rfl]
    simp

theorem get_postcondition_witness :
    ∃ q1 : Queue Int,
      Queue.get ({ queue := [7, 8], notEmpty := { flag := true },
                   notFull := { flag := false }, capacity := 2 } : Queue Int) = .done (7, q1) ∧
      q1.queue = [8] ∧ q1.getCapacity = 2 ∧ q1.notFull.isSet = true := by
  obtain ⟨q1, h1, h2, h3, h4⟩ :=
    (get_postcondition (T := Int)).1
      { queue := [7, 8], notEmpty := { flag := true }, notFull := { flag := false },
        capacity := 2 } 7 [8] rfl rfl
  exact ⟨q1, h1, h2, h3, h4 (by decide)⟩

/-! ## Unbounded mode -/

/-- C6: for every capacity `C <= 0`, in every state reachable from `Queue(C)` by
completed `put` and `get` calls, `notFull` is set, `isFull()` is false, and every
`put` completes. -/
theorem unbounded_never_blocks (C : Int) (hC : C ≤ 0) (q : Queue T) (hq : Reachable C q) :
    q.notFull.isSet = true ∧ q.isFull = false ∧ ∀ e : T, ∃ q1, q.put e = .done q1 := by
  obtain ⟨ops, outs, hall, hrun⟩ := hq
  have inv : q.capacity = C ∧ q.notFull.flag = true := by
    refine Queue.run_invariant Op.isPutGet
      (fun q => q.capacity = C ∧ q.notFull.flag = true) ?_ ops (Queue.ctor C) outs q hall
      ⟨rfl, rfl⟩ hrun
    intro q0 op o q1 _ hP hs
    rw [Queue.step_done_iff] at hs
    rcases hs with ⟨e, -, -, hp⟩ | ⟨x, -, -, hg⟩ | ⟨c, rfl, -, -⟩
    · rw [Queue.put_done_iff] at hp
      obtain ⟨-, rfl⟩ := hp
      exact hP
    · rw [Queue.get_done_iff] at hg
      obtain ⟨-, rest, -, rfl⟩ := hg
      refine ⟨hP.1, ?_⟩
      have h0 : q0.capacity ≤ 0 := hP.1 ▸ hC
      simp [h0]
    · rename_i hallow
      cases hallow
  refine ⟨inv.2, ?_, fun e => ⟨_, Queue.put_of_notFull q e inv.2⟩⟩
  have h0 : q.capacity ≤ 0 := inv.1 ▸ hC
  simp only [Queue.isFull, decide_eq_false_iff_not]
  intro h
  omega

theorem unbounded_never_blocks_witness :
    (0 : Int) ≤ 0 ∧
    Reachable 0 ({ queue := [2], notEmpty := { flag := true }, notFull := { flag := true },
                   capacity := 0 } : Queue Int) ∧
    (Event.isSet
        (Queue.notFull ({ queue := [2], notEmpty := { flag := true },
                          notFull := { flag := true }, capacity := 0 } : Queue Int)) = true ∧
      Queue.isFull ({ queue := [2], notEmpty := { flag := true }, notFull := { flag := true },
                      capacity := 0 } : Queue Int) = false ∧
      ∀ e : Int, ∃ q1,
        Queue.put ({ queue := [2], notEmpty := { flag := true }, notFull := { flag := true },
                     capacity := 0 } : Queue Int) e = .done q1) :=
  ⟨by decide, ⟨[.put 1, .put 2, .get], [1], by decide, by decide⟩,
   unbounded_never_blocks 0 (by decide)
     ({ queue := [2], notEmpty := { flag := true }, notFull := { flag := true },
        capacity := 0 } : Queue Int)
     ⟨[.put 1, .put 2, .get], [1], by decide, by decide⟩⟩

/-! ## `setCapacity` -/

/-- C7: for every queue state and every integer `c`, after `setCapacity(c)` the capacity
is `c`, the buffer (hence `size()`) and `notEmpty` are unchanged, `notFull` is set if
`c <= 0` or `size() < c`, and otherwise (`c > 0` and `size() >= c`) `notFull` is what
it was before the call. -/
theorem setCapacity_postcondition (q : Queue T) (c : Int) :
    (q.setCapacity c).getCapacity = c ∧
    (q.setCapacity c).queue = q.queue ∧
    (q.setCapacity c).size = q.size ∧
    (q.setCapacity c).notEmpty = q.notEmpty ∧
    ((c ≤ 0 ∨ (q.setCapacity c).size < c) → (q.setCapacity c).notFull.isSet = true) ∧
    ((0 < c ∧ c ≤ (q.setCapacity c).size) → (q.setCapacity c).notFull = q.notFull) := by
  rw [Queue.setCapacity_eq]
  refine ⟨rfl, rfl, rfl, rfl, ?_, ?_⟩
  · intro h
    simp only [Queue.size, QQueue.size] at h
    simp [Event.isSet, h]
  · rintro ⟨h1, h2⟩
    simp only [Queue.size, QQueue.size] at h2
    have h3 : ¬ (c ≤ 0 ∨ (q.queue.length : Int) < c) := by omega
    simp [h3]

theorem setCapacity_postcondition_witness :
    Event.isSet (Queue.notFull (Queue.setCapacity
        ({ queue := [1, 2], notEmpty := { flag := true }, notFull := { flag := false },
           capacity := 1 } : Queue Int) 3)) = true ∧
    Queue.notFull (Queue.setCapacity
        ({ queue := [1, 2], notEmpty := { flag := true }, notFull := { flag := false },
           capacity := 3 } : Queue Int) 2) = { flag := false } :=
  ⟨(setCapacity_postcondition
      ({ queue := [1, 2], notEmpty := { flag := true }, notFull := { flag := false },
         capacity := 1 } : Queue Int) 3).2.2.2.2.1 (by decide),
   (setCapacity_postcondition
      ({ queue := [1, 2], notEmpty := { flag := true }, notFull := { flag := false },
         capacity := 3 } : Queue Int) 2).2.2.2.2.2 (by decide)⟩

/-! ## `ValueEvent` -/

/-- C8: for every `ValueEvent` state and every value `v`, after `send(v)` the event is
set and `wait(blocking)` returns `v` without blocking for either value of `blocking`;
and `send` stores the value before it sets the event: after its first statement the
object differs from the initial one only in holding `v`, and at every point of the
body at which `event.set()` has run the slot holds `v`. -/
theorem valueEvent_handoff {Value : Type} (s : ValueEvent Value) (v : Value) :
    (s.send v).isSet = true ∧
    (∀ blocking : Bool, (s.send v).wait blocking = .done v) ∧
    s.execFirst (ValueEvent.sendBody v) 1 = { event := s.event, value := v } ∧
    (∀ k : Nat, SendStmt.setEvent ∈ (ValueEvent.sendBody v).take k →
        (s.execFirst (ValueEvent.sendBody v) k).value = v) := by
  refine ⟨rfl, ?_, rfl, ?_⟩
  · intro blocking
    cases blocking <;> rfl
  · intro k hk
    match k, hk with
    | 0, hk => simp at hk
    | 1, hk => simp [ValueEvent.sendBody] at hk
    | k + 2, _ => simp [ValueEvent.execFirst, ValueEvent.sendBody, SendStmt.exec]

/-! ## Destructor -/

/-- C9: for every queue state, after the body of `~Queue()` both `notFull` and
`notEmpty` are set, so a blocking wait on either of them returns, and the buffer and
the capacity are unchanged. -/
theorem dtor_releases_waiters (q : Queue T) :
    q.dtor.notFull.isSet = true ∧ q.dtor.notEmpty.isSet = true ∧
    q.dtor.notFull.wait true = .done true ∧ q.dtor.notEmpty.wait true = .done true ∧
    q.dtor.queue = q.queue ∧ q.dtor.capacity = q.capacity :=
  ⟨rfl, rfl, rfl, rfl, rfl, rfl⟩

/-! ## Events are never cleared -/

/-- C10: none of `put(e)`, `get()` and `setCapacity(c)` clears an event: if `notFull`
(respectively `notEmpty`) is set before a completed call, it is set after it.  Hence
`notFull` is set in every state reachable from a freshly constructed queue by
completed `put`, `get` and `setCapacity` calls, and once a `put` has completed
`notEmpty` is set in every later state. -/
theorem events_never_cleared :
    (∀ (q : Queue T) (e : T) (q1 : Queue T), q.put e = .done q1 →
        (q.notFull.isSet = true → q1.notFull.isSet = true) ∧
        (q.notEmpty.isSet = true → q1.notEmpty.isSet = true)) ∧
    (∀ (q : Queue T) (x : T) (q1 : Queue T), q.get = .done (x, q1) →
        (q.notFull.isSet = true → q1.notFull.isSet = true) ∧
        (q.notEmpty.isSet = true → q1.notEmpty.isSet = true)) ∧
    (∀ (q : Queue T) (c : Int),
        (q.notFull.isSet = true → (q.setCapacity c).notFull.isSet = true) ∧
        (q.notEmpty.isSet = true → (q.setCapacity c).notEmpty.isSet = true)) ∧
    (∀ (C : Int) (q : Queue T), ReachableAny C q → q.notFull.isSet = true) ∧
    (∀ (q : Queue T) (e : T) (q1 : Queue T) (ops : List (Op T)) (outs : List T)
        (q2 : Queue T),
        q.put e = .done q1 → Queue.run ops q1 = .done (outs, q2) →
        q2.notEmpty.isSet = true) := by
  have hput : ∀ (q : Queue T) (e : T) (q1 : Queue T), q.put e = .done q1 →
      (q.notFull.isSet = true → q1.notFull.isSet = true) ∧
      (q.notEmpty.isSet = true → q1.notEmpty.isSet = true) := by
    intro q e q1 h
    rw [Queue.put_done_iff] at h
    obtain ⟨-, rfl⟩ := h
    exact ⟨fun h => h, fun _ => rfl⟩
  have hget : ∀ (q : Queue T) (x : T) (q1 : Queue T), q.get = .done (x, q1) →
      (q.notFull.isSet = true → q1.notFull.isSet = true) ∧
      (q.notEmpty.isSet = true → q1.notEmpty.isSet = true) := by
    intro q x q1 h
    rw [Queue.get_done_iff] at h
    obtain ⟨-, rest, -, rfl⟩ := h
    refine ⟨fun h => ?_, fun h => h⟩
    simp only [Event.isSet] at h ⊢
    split
    · rfl
    · exact h
  have hset : ∀ (q : Queue T) (c : Int),
      (q.notFull.isSet = true → (q.setCapacity c).notFull.isSet = true) ∧
      (q.notEmpty.isSet = true → (q.setCapacity c).notEmpty.isSet = true) := by
    intro q c
    rw [Queue.setCapacity_eq]
    refine ⟨fun h => ?_, fun h => h⟩
    simp only [Event.isSet] at h ⊢
    split
    · rfl
    · exact h
  have hstep : ∀ (q : Queue T) (op : Op T) (o : Option T) (q1 : Queue T),
      q.step op = .done (o, q1) →
      (q.notFull.isSet = true → q1.notFull.isSet = true) ∧
      (q.notEmpty.isSet = true → q1.notEmpty.isSet = true) := by
    intro q op o q1 hs
    rw [Queue.step_done_iff] at hs
    rcases hs with ⟨e, -, -, hp⟩ | ⟨x, -, -, hg⟩ | ⟨c, -, -, rfl⟩
    · exact hput q e q1 hp
    · exact hget q x q1 hg
    · exact hset q c
  refine ⟨hput, hget, hset, ?_, ?_⟩
  · rintro C q ⟨ops, outs, hrun⟩
    exact Queue.run_invariant (fun _ => true) (fun q => q.notFull.isSet = true)
      (fun q0 op o q1 _ hP hs => (hstep q0 op o q1 hs).1 hP)
      ops (Queue.ctor C) outs q (by simp) rfl hrun
  · intro q e q1 ops outs q2 hp hrun
    have h1 : q1.notEmpty.isSet = true := by
      rw [Queue.put_done_iff] at hp
      obtain ⟨-, rfl⟩ := hp
      rfl
    exact Queue.run_invariant (fun _ => true) (fun q => q.notEmpty.isSet = true)
      (fun q0 op o q3 _ hP hs => (hstep q0 op o q3 hs).2 hP)
      ops q1 outs q2 (by simp) h1 hrun

theorem events_never_cleared_witness :
    Event.isSet (Queue.notFull
      ({ queue := [2, 3], notEmpty := { flag := true }, notFull := { flag := true },
         capacity := 1 } : Queue Int)) = true ∧
    Event.isSet (Queue.notEmpty
      ({ queue := [], notEmpty := { flag := true }, notFull := { flag := true },
         capacity := 5 } : Queue Int)) = true :=
  ⟨(events_never_cleared (T := Int)).2.2.2.1 1 _
      ⟨[.put 1, .put 2, .setCapacity 1, .get, .put 3], [1], by decide⟩,
   (events_never_cleared (T := Int)).2.2.2.2 (Queue.ctor 5) 1
      { queue := [1], notEmpty := { flag := true }, notFull := { flag := true }, capacity := 5 }
      [.get, .setCapacity 5] [1] _ (by decide) (by decide)⟩

end Locks
